import Mathlib

/-!
Verification of the job admission validation utilities
(`pkg/webhooks/admission/jobs/validate/util.go`).

The Go source validates lifecycle policies and volume mounts of a batch
job.  We embed the two validators shallowly:

* Go maps used as sets become `List`s to which an element is appended
  only when it is not yet a member, so list membership coincides with
  map membership and list length with map size;
* the `*multierror.Error` accumulator becomes a `List PolicyViolation`
  (a nil error is the empty list);
* each `fmt.Errorf` / `field.Invalid` construction site in
  `validatePolicies` becomes one constructor of `PolicyViolation`, and
  likewise for `validateIO` and `VolumeViolation`;
* the nil-pointer dereference `*policy.ExitCode` is modelled totally:
  the policy loop returns an `Option`, `none` standing for the runtime
  fault of dereferencing a nil pointer.
-/

namespace JobValidate

/-- Events are symbolic names; the Go type `v1alpha1.Event` is a string
type, so arbitrary strings are possible values. -/
abbrev Event := String

/-- Actions are symbolic names; the Go type `v1alpha1.Action` is a
string type. -/
abbrev Action := String

/-- Constants of the external volcano API (`v1alpha1`); only their
distinctness and being nonempty matter to the validator. -/
def AnyEvent : Event := "*"

def PodFailedEvent : Event := "PodFailed"

def PodEvictedEvent : Event := "PodEvicted"

def JobUnknownEvent : Event := "Unknown"

def TaskCompletedEvent : Event := "TaskCompleted"

def OutOfSyncEvent : Event := "OutOfSync"

def CommandIssuedEvent : Event := "CommandIssued"

def AbortJobAction : Action := "AbortJob"

def RestartJobAction : Action := "RestartJob"

def RestartTaskAction : Action := "RestartTask"

def TerminateJobAction : Action := "TerminateJob"

def CompleteJobAction : Action := "CompleteJob"

def ResumeJobAction : Action := "ResumeJob"

def SyncJobAction : Action := "SyncJob"

def EnqueueAction : Action := "Enqueue"

/-- The `policyEventMap` allow-list of the source: a Go map lookup
`allow, ok := policyEventMap[event]` is modelled as an `Option Bool`
(`none` for a missing key). -/
def policyEventMap (event : Event) : Option Bool :=
  if event = AnyEvent then some true
  else if event = PodFailedEvent then some true
  else if event = PodEvictedEvent then some true
  else if event = JobUnknownEvent then some true
  else if event = TaskCompletedEvent then some true
  else if event = OutOfSyncEvent then some false
  else if event = CommandIssuedEvent then some false
  else none

/-- The `policyActionMap` allow-list of the source. -/
def policyActionMap (action : Action) : Option Bool :=
  if action = AbortJobAction then some true
  else if action = RestartJobAction then some true
  else if action = RestartTaskAction then some true
  else if action = TerminateJobAction then some true
  else if action = CompleteJobAction then some true
  else if action = ResumeJobAction then some true
  else if action = SyncJobAction then some false
  else if action = EnqueueAction then some false
  else none

/-- `v1alpha1.LifecyclePolicy`, restricted to the fields the validator
reads (the `Timeout` field is never touched by `util.go`).  `exitCode`
models the Go field `ExitCode *int32`, `none` being a nil pointer. -/
structure LifecyclePolicy where
  event : Event
  events : List Event
  exitCode : Option Int
  action : Action
deriving DecidableEq, Repr

/-- `v1alpha1.VolumeSpec`, restricted to the fields `validateIO` reads.
`volumeClaim` models `VolumeClaim *v1.PersistentVolumeClaimSpec`; only
its nil-ness is ever inspected, hence `Option Unit`. -/
structure VolumeSpec where
  mountPath : String
  volumeClaim : Option Unit
  volumeClaimName : String
deriving DecidableEq, Repr

/-- One constructor per error construction site in `validatePolicies`:
`simultaneous` = "must not specify event and exitCode simultaneously",
`neitherSpecified` = "either event and exitCode should be specified",
`invalidEvent` = `field.Invalid(fldPath, event, "invalid policy event")`,
`invalidAction` = `field.Invalid(fldPath, action, "invalid policy action")`,
`duplicateEvent` = "duplicate event %v across different policy",
`zeroExitCode` = "0 is not a valid error code",
`duplicateExitCode` = "duplicate exitCode %v",
`wildcardConflict` = "if there's * here, no other policy should be here". -/
inductive PolicyViolation where
  | simultaneous
  | neitherSpecified
  | invalidEvent (event : Event)
  | invalidAction (action : Action)
  | duplicateEvent (event : Event)
  | zeroExitCode
  | duplicateExitCode (code : Int)
  | wildcardConflict
deriving DecidableEq, Repr

/-- One constructor per error construction site in `validateIO`:
`mountPathRequired` = " mountPath is required;",
`duplicatedMountPath` = " duplicated mountPath: %s;",
`claimOrNameRequired` = " either VolumeClaim or VolumeClaimName must be specified;",
`claimConflict` = the "confilct: ..." message for both fields set,
`invalidVolumeClaimName` = "invalid VolumeClaimName %s : %v" carrying the
messages returned by the delegated name check. -/
inductive VolumeViolation where
  | mountPathRequired
  | duplicatedMountPath (path : String)
  | claimOrNameRequired
  | claimConflict
  | invalidVolumeClaimName (name : String) (msgs : List String)
deriving DecidableEq, Repr

/-- `removeDuplicates`' loop: `keys` is the Go map used as a seen-set;
an element is kept exactly when it is not yet in `keys`. -/
def removeDupAux : List Event → List Event → List Event
  | [], _ => []
  | val :: rest, keys =>
    if val ∈ keys then removeDupAux rest keys
    else val :: removeDupAux rest (keys ++ [val])

/-- `removeDuplicates` of the source. -/
def removeDuplicates (eventList : List Event) : List Event :=
  removeDupAux eventList []

/-- `getEventList` of the source: the `Events` field, then the single
`Event` field when nonempty, then de-duplicated. -/
def getEventList (policy : LifecyclePolicy) : List Event :=
  removeDuplicates (if policy.event ≠ "" then policy.events ++ [policy.event] else policy.events)

/-- The inner `for _, event := range policyEventsList` loop of
`validatePolicies`.  Returns the first violation (if any) together with
the updated seen-events set; events checked before the failing one stay
recorded, exactly as the Go map mutations persist across the `break`. -/
def checkEvents (action : Action) : List Event → List Event → Option PolicyViolation × List Event
  | [], policyEvents => (none, policyEvents)
  | event :: rest, policyEvents =>
    match policyEventMap event with
    | none => (some (.invalidEvent event), policyEvents)
    | some false => (some (.invalidEvent event), policyEvents)
    | some true =>
      match policyActionMap action with
      | none => (some (.invalidAction action), policyEvents)
      | some false => (some (.invalidAction action), policyEvents)
      | some true =>
        if event ∈ policyEvents then (some (.duplicateEvent event), policyEvents)
        else checkEvents action rest (policyEvents ++ [event])

/-- The outer `for _, policy := range policies` loop of
`validatePolicies`, with the running seen-events and seen-exit-codes
sets made explicit.  Every violating branch of the source does
`multierror.Append` followed by `break`, so the loop returns at most a
singleton violation list together with the sets at the moment of the
break.  `none` models the nil-pointer dereference `*policy.ExitCode`
faulting. -/
def validatePoliciesAux : List LifecyclePolicy → List Event → List Int →
    Option (List PolicyViolation × List Event × List Int)
  | [], policyEvents, exitCodes => some ([], policyEvents, exitCodes)
  | policy :: rest, policyEvents, exitCodes =>
    if (policy.event ≠ "" ∨ policy.events ≠ []) ∧ policy.exitCode ≠ none then
      some ([.simultaneous], policyEvents, exitCodes)
    else if policy.event = "" ∧ policy.events = [] ∧ policy.exitCode = none then
      some ([.neitherSpecified], policyEvents, exitCodes)
    else if policy.event ≠ "" ∨ policy.events ≠ [] then
      match checkEvents policy.action (getEventList policy) policyEvents with
      | (some v, policyEvents') => some ([v], policyEvents', exitCodes)
      | (none, policyEvents') => validatePoliciesAux rest policyEvents' exitCodes
    else
      match policy.exitCode with
      | none => none
      | some code =>
        if code = 0 then some ([.zeroExitCode], policyEvents, exitCodes)
        else if code ∈ exitCodes then some ([.duplicateExitCode code], policyEvents, exitCodes)
        else validatePoliciesAux rest policyEvents (exitCodes ++ [code])

/-- The post-loop wildcard cross-check of `validatePolicies`: the Go
test `_, found := policyEvents[AnyEvent]; found && len(policyEvents) > 1`
(the seen-events list is duplicate-free by construction, so its length
is the map's size). -/
def wildcardPart (policyEvents : List Event) : List PolicyViolation :=
  if AnyEvent ∈ policyEvents ∧ 1 < policyEvents.length then [.wildcardConflict] else []

/-- `validatePolicies` of the source.  `some []` models a nil returned
error, `some vs` a multierror unwrapping to `vs`, `none` the
nil-pointer fault. -/
def validatePolicies (policies : List LifecyclePolicy) : Option (List PolicyViolation) :=
  match validatePoliciesAux policies [] [] with
  | none => none
  | some (errs, policyEvents, _) => some (errs ++ wildcardPart policyEvents)

/-- The `for _, volume := range volumes` loop of `validateIO` (named
`validateVolumesAux` here because Lean declaration names ending in
certain suffixes are avoided in this development), with the `volumeMap`
seen-set explicit.  `check` is the delegated
`validation.ValidatePersistentVolumeName(·, false)` collaborator, which
returns a list of error messages (empty = valid). -/
def validateVolumesAux (check : String → List String) :
    List VolumeSpec → List String → Option VolumeViolation
  | [], _ => none
  | volume :: rest, volumeMap =>
    if volume.mountPath = "" then some .mountPathRequired
    else if volume.mountPath ∈ volumeMap then some (.duplicatedMountPath volume.mountPath)
    else if volume.volumeClaim = none ∧ volume.volumeClaimName = "" then
      some .claimOrNameRequired
    else if volume.volumeClaimName ≠ "" then
      if volume.volumeClaim ≠ none then some .claimConflict
      else if check volume.volumeClaimName ≠ [] then
        some (.invalidVolumeClaimName volume.volumeClaimName (check volume.volumeClaimName))
      else validateVolumesAux check rest (volumeMap ++ [volume.mountPath])
    else validateVolumesAux check rest (volumeMap ++ [volume.mountPath])

/-- `validateIO` of the source: `none` models a nil returned error,
`some v` the single (non-aggregated) error `v`. -/
def validateVolumes (check : String → List String) (volumes : List VolumeSpec) :
    Option VolumeViolation :=
  validateVolumesAux check volumes []

/-! ## Spec-side predicates

These definitions follow the wording of the specification and of the
claims; the theorems below compare them with the embedded code. -/

/-- A policy carries an event specification (single field or list). -/
def eventSpecified (p : LifecyclePolicy) : Prop :=
  p.event ≠ "" ∨ p.events ≠ []

instance (p : LifecyclePolicy) : Decidable (eventSpecified p) := by
  unfold eventSpecified
  infer_instance

/-- The events cited by `p` and those cited by `q` do not overlap. -/
def policyEventsDisjoint (p q : LifecyclePolicy) : Prop :=
  ∀ e ∈ getEventList p, e ∉ getEventList q

instance (p q : LifecyclePolicy) : Decidable (policyEventsDisjoint p q) := by
  unfold policyEventsDisjoint
  infer_instance

/-- When `p` carries an exit code, `q` does not carry the same one. -/
def exitCodesDistinct (p q : LifecyclePolicy) : Prop :=
  p.exitCode = none ∨ p.exitCode ≠ q.exitCode

instance (p q : LifecyclePolicy) : Decidable (exitCodesDistinct p q) := by
  unfold exitCodesDistinct
  infer_instance

/-- The claim's well-formedness conditions that are common to the
literal and the amended reading of C1: exactly one of event
specification and exit code per policy, every cited event allow-listed
with flag `true`, no event cited by two different policies, exit codes
nonzero and pairwise distinct, and the wildcard not recorded together
with another distinct event. -/
def wellFormedExceptAction (ps : List LifecyclePolicy) : Prop :=
  (∀ p ∈ ps, (eventSpecified p ↔ p.exitCode = none)) ∧
  (∀ p ∈ ps, ∀ e ∈ getEventList p, policyEventMap e = some true) ∧
  List.Pairwise policyEventsDisjoint ps ∧
  (∀ p ∈ ps, p.exitCode ≠ some 0) ∧
  List.Pairwise exitCodesDistinct ps ∧
  ¬(AnyEvent ∈ ps.flatMap getEventList ∧ ∃ e ∈ ps.flatMap getEventList, e ≠ AnyEvent)

instance (ps : List LifecyclePolicy) : Decidable (wellFormedExceptAction ps) := by
  unfold wellFormedExceptAction
  infer_instance

/-- Claim C1's well-formedness, literal reading: the action condition
applies to every policy of the list. -/
def claimWellFormed (ps : List LifecyclePolicy) : Prop :=
  wellFormedExceptAction ps ∧ ∀ p ∈ ps, policyActionMap p.action = some true

instance (ps : List LifecyclePolicy) : Decidable (claimWellFormed ps) := by
  unfold claimWellFormed
  infer_instance

/-- Claim C1's well-formedness, amended: the action condition applies
to the policies that cite at least one event (the code never inspects
the action of an exit-code-only policy). -/
def amendedWellFormed (ps : List LifecyclePolicy) : Prop :=
  wellFormedExceptAction ps ∧
  ∀ p ∈ ps, eventSpecified p → policyActionMap p.action = some true

instance (ps : List LifecyclePolicy) : Decidable (amendedWellFormed ps) := by
  unfold amendedWellFormed
  infer_instance

/-- Spec-side duplicate removal, written to make "keep the first
occurrence, preserve relative order" manifest: the head is kept and
every later copy of it is dropped before recursing. -/
def dedupKeepFirst : List Event → List Event
  | [] => []
  | x :: xs => x :: dedupKeepFirst (xs.filter (fun y => y ≠ x))
termination_by l => l.length
decreasing_by
  simp only [List.length_cons]
  exact Nat.lt_succ_of_le (xs.length_filter_le _)

/-- Spec-side validity of a single volume entry: nonempty mount path,
exactly one of the inline claim template and the claim-name reference,
and, when the name reference is used, the delegated name check
passes. -/
def validVolume (check : String → List String) (v : VolumeSpec) : Prop :=
  v.mountPath ≠ "" ∧ (v.volumeClaim ≠ none ↔ v.volumeClaimName = "") ∧
  (v.volumeClaimName ≠ "" → check v.volumeClaimName = [])

instance (check : String → List String) (v : VolumeSpec) :
    Decidable (validVolume check v) := by
  unfold validVolume
  infer_instance

/-- Spec-side validity of a volume list: every entry valid and mount
paths pairwise distinct. -/
def goodVolumes (check : String → List String) (vs : List VolumeSpec) : Prop :=
  (∀ v ∈ vs, validVolume check v) ∧ (vs.map (·.mountPath)).Nodup

instance (check : String → List String) (vs : List VolumeSpec) :
    Decidable (goodVolumes check vs) := by
  unfold goodVolumes
  infer_instance

/-- Success conditions of one run of the inner event loop relative to
the seen-events set: every event allow-listed, the action allow-listed
(whenever there is an event to trigger the check), and no event seen
before. -/
def CEGood (a : Action) (l seen : List Event) : Prop :=
  (∀ e ∈ l, policyEventMap e = some true) ∧
  (l ≠ [] → policyActionMap a = some true) ∧
  (∀ e ∈ l, e ∉ seen)

/-- Success conditions of the outer loop over the remaining policies,
relative to the running seen-events and seen-exit-codes sets. -/
def LoopGood (ps : List LifecyclePolicy) (seen : List Event) (codes : List Int) : Prop :=
  (∀ p ∈ ps, (eventSpecified p ↔ p.exitCode = none)) ∧
  (∀ p ∈ ps, ∀ e ∈ getEventList p, policyEventMap e = some true) ∧
  (∀ p ∈ ps, eventSpecified p → policyActionMap p.action = some true) ∧
  (∀ p ∈ ps, ∀ e ∈ getEventList p, e ∉ seen) ∧
  List.Pairwise policyEventsDisjoint ps ∧
  (∀ p ∈ ps, ∀ c : Int, p.exitCode = some c → c ≠ 0 ∧ c ∉ codes) ∧
  List.Pairwise exitCodesDistinct ps

/-! ## Helper lemmas about the de-duplication helper -/

theorem removeDupAux_mem (l : List Event) :
    ∀ keys e, e ∈ removeDupAux l keys ↔ e ∈ l ∧ e ∉ keys := by
  induction l with
  | nil => intro keys e; simp [removeDupAux]
  | cons val rest ih =>
    intro keys e
    by_cases hmem : val ∈ keys
    · rw [removeDupAux, if_pos hmem, ih]
      constructor
      · rintro ⟨h1, h2⟩
        exact ⟨List.mem_cons_of_mem _ h1, h2⟩
      · rintro ⟨h1, h2⟩
        rcases List.mem_cons.mp h1 with h | h
        · subst h; exact absurd hmem h2
        · exact ⟨h, h2⟩
    · rw [removeDupAux, if_neg hmem]
      by_cases hev : e = val
      · subst hev
        simp [hmem]
      · simp only [List.mem_cons, hev, false_or]
        rw [ih]
        simp [hev]

theorem removeDupAux_nodup (l : List Event) :
    ∀ keys, (removeDupAux l keys).Nodup := by
  induction l with
  | nil => intro keys; simp [removeDupAux]
  | cons val rest ih =>
    intro keys
    by_cases hmem : val ∈ keys
    · rw [removeDupAux, if_pos hmem]; exact ih keys
    · rw [removeDupAux, if_neg hmem]
      refine List.nodup_cons.mpr ⟨?_, ih _⟩
      intro hval
      rcases (removeDupAux_mem rest _ val).mp hval with ⟨_, habs⟩
      exact habs (by simp)

theorem removeDupAux_sublist (l : List Event) :
    ∀ keys, (removeDupAux l keys).Sublist l := by
  induction l with
  | nil => intro keys; simp [removeDupAux]
  | cons val rest ih =>
    intro keys
    by_cases hmem : val ∈ keys
    · rw [removeDupAux, if_pos hmem]
      exact (ih keys).cons _
    · rw [removeDupAux, if_neg hmem]
      exact (ih _).cons₂ _

theorem removeDuplicates_mem (l : List Event) (e : Event) :
    e ∈ removeDuplicates l ↔ e ∈ l := by
  rw [removeDuplicates, removeDupAux_mem]
  simp

theorem removeDuplicates_nodup (l : List Event) : (removeDuplicates l).Nodup :=
  removeDupAux_nodup l []

theorem getEventList_nodup (p : LifecyclePolicy) : (getEventList p).Nodup :=
  removeDuplicates_nodup _

theorem getEventList_mem (p : LifecyclePolicy) (e : Event) :
    e ∈ getEventList p ↔
      e ∈ (if p.event ≠ "" then p.events ++ [p.event] else p.events) := by
  rw [getEventList, removeDuplicates_mem]

theorem getEventList_eq_nil (p : LifecyclePolicy)
    (h1 : p.event = "") (h2 : p.events = []) : getEventList p = [] := by
  simp [getEventList, h1, h2, removeDuplicates, removeDupAux]

theorem getEventList_ne_nil (p : LifecyclePolicy) (h : eventSpecified p) :
    getEventList p ≠ [] := by
  rcases h with h | h
  · intro hnil
    have : p.event ∈ getEventList p := by
      rw [getEventList_mem, if_pos h]
      simp
    rw [hnil] at this
    cases this
  · intro hnil
    rcases List.exists_mem_of_ne_nil _ h with ⟨x, hx⟩
    have : x ∈ getEventList p := by
      rw [getEventList_mem]
      split <;> simp [hx]
    rw [hnil] at this
    cases this

/-! ## Characterisation of the inner event loop -/

theorem checkEvents_cons (a : Action) (e : Event) (rest seen : List Event) :
    checkEvents a (e :: rest) seen =
      match policyEventMap e with
      | none => (some (.invalidEvent e), seen)
      | some false => (some (.invalidEvent e), seen)
      | some true =>
        match policyActionMap a with
        | none => (some (.invalidAction a), seen)
        | some false => (some (.invalidAction a), seen)
        | some true =>
          if e ∈ seen then (some (.duplicateEvent e), seen)
          else checkEvents a rest (seen ++ [e]) := rfl

theorem checkEvents_char (l : List Event) (hnd : l.Nodup) (a : Action)
    (seen : List Event) :
    (CEGood a l seen ∧ checkEvents a l seen = (none, seen ++ l)) ∨
    (¬ CEGood a l seen ∧ ∃ v s', checkEvents a l seen = (some v, s')) := by
  induction l generalizing seen with
  | nil =>
    left
    refine ⟨⟨by simp, fun h => absurd rfl h, by simp⟩, by simp [checkEvents]⟩
  | cons e rest ih =>
    rw [List.nodup_cons] at hnd
    obtain ⟨hne, hndr⟩ := hnd
    cases hpe : policyEventMap e with
    | none =>
      right
      constructor
      · rintro ⟨h1, -, -⟩
        have := h1 e (List.mem_cons_self e rest)
        rw [hpe] at this
        cases this
      · exact ⟨_, _, by rw [checkEvents_cons, hpe]⟩
    | some b =>
      cases b with
      | false =>
        right
        constructor
        · rintro ⟨h1, -, -⟩
          have := h1 e (List.mem_cons_self e rest)
          rw [hpe] at this
          cases this
        · exact ⟨_, _, by rw [checkEvents_cons, hpe]⟩
      | true =>
        cases hpa : policyActionMap a with
        | none =>
          right
          constructor
          · rintro ⟨-, h2, -⟩
            have := h2 (by simp)
            rw [hpa] at this
            cases this
          · exact ⟨_, _, by rw [checkEvents_cons, hpe, hpa]⟩
        | some b2 =>
          cases b2 with
          | false =>
            right
            constructor
            · rintro ⟨-, h2, -⟩
              have := h2 (by simp)
              rw [hpa] at this
              cases this
            · exact ⟨_, _, by rw [checkEvents_cons, hpe, hpa]⟩
          | true =>
            by_cases hseen : e ∈ seen
            · right
              constructor
              · rintro ⟨-, -, h3⟩
                exact h3 e (List.mem_cons_self e rest) hseen
              · exact ⟨.duplicateEvent e, seen,
                  by rw [checkEvents_cons, hpe, hpa, if_pos hseen]⟩
            · have step : checkEvents a (e :: rest) seen =
                  checkEvents a rest (seen ++ [e]) := by
                rw [checkEvents_cons, hpe, hpa]
                simp [hseen]
              rcases ih hndr (seen ++ [e]) with ⟨hgood, heq⟩ | ⟨hbad, v, s', heq⟩
              · left
                constructor
                · refine ⟨?_, fun _ => hpa, ?_⟩
                  · intro x hx
                    rcases List.mem_cons.mp hx with rfl | hx
                    · exact hpe
                    · exact hgood.1 x hx
                  · intro x hx
                    rcases List.mem_cons.mp hx with rfl | hx
                    · exact hseen
                    · intro hxs
                      exact hgood.2.2 x hx (by simp [hxs])
                · rw [step, heq]
                  simp
              · right
                constructor
                · rintro ⟨h1, -, h3⟩
                  apply hbad
                  refine ⟨fun x hx => h1 x (List.mem_cons_of_mem _ hx),
                    fun _ => hpa, ?_⟩
                  intro x hx hxs
                  rcases List.mem_append.mp hxs with hxs | hxs
                  · exact h3 x (List.mem_cons_of_mem _ hx) hxs
                  · have hxe : x = e := by simpa using hxs
                    exact hne (hxe ▸ hx)
                · exact ⟨v, s', by rw [step, heq]⟩

/-! ## Characterisation of the outer policy loop -/

theorem LoopGood_nil (seen : List Event) (codes : List Int) :
    LoopGood [] seen codes := by
  simp [LoopGood]

theorem LoopGood_cons_event (p : LifecyclePolicy) (rest : List LifecyclePolicy)
    (seen : List Event) (codes : List Int)
    (hspec : eventSpecified p) (hcode : p.exitCode = none)
    (hce : CEGood p.action (getEventList p) seen) :
    LoopGood (p :: rest) seen codes ↔ LoopGood rest (seen ++ getEventList p) codes := by
  obtain ⟨he1, he2, he3⟩ := hce
  have hact : policyActionMap p.action = some true := he2 (getEventList_ne_nil p hspec)
  constructor
  · rintro ⟨g1, g2, g3, g4, g5, g6, g7⟩
    rw [List.pairwise_cons] at g5 g7
    refine ⟨fun q hq => g1 q (List.mem_cons_of_mem _ hq),
      fun q hq => g2 q (List.mem_cons_of_mem _ hq),
      fun q hq => g3 q (List.mem_cons_of_mem _ hq), ?_, g5.2,
      fun q hq => g6 q (List.mem_cons_of_mem _ hq), g7.2⟩
    intro q hq e he habs
    rcases List.mem_append.mp habs with hs | hg
    · exact g4 q (List.mem_cons_of_mem _ hq) e he hs
    · exact g5.1 q hq e hg he
  · rintro ⟨g1, g2, g3, g4, g5, g6, g7⟩
    refine ⟨?_, ?_, ?_, ?_, ?_, ?_, ?_⟩
    · intro q hq
      rcases List.mem_cons.mp hq with rfl | hq
      · exact ⟨fun _ => hcode, fun _ => hspec⟩
      · exact g1 q hq
    · intro q hq
      rcases List.mem_cons.mp hq with rfl | hq
      · exact he1
      · exact g2 q hq
    · intro q hq
      rcases List.mem_cons.mp hq with rfl | hq
      · exact fun _ => hact
      · exact g3 q hq
    · intro q hq
      rcases List.mem_cons.mp hq with rfl | hq
      · exact he3
      · intro e he hs
        exact g4 q hq e he (List.mem_append.mpr (Or.inl hs))
    · rw [List.pairwise_cons]
      refine ⟨?_, g5⟩
      intro q hq e hep heq
      exact g4 q hq e heq (List.mem_append.mpr (Or.inr hep))
    · intro q hq
      rcases List.mem_cons.mp hq with rfl | hq
      · intro c hc
        rw [hcode] at hc
        cases hc
      · exact g6 q hq
    · rw [List.pairwise_cons]
      exact ⟨fun q hq => Or.inl hcode, g7⟩

theorem LoopGood_cons_exit (p : LifecyclePolicy) (rest : List LifecyclePolicy)
    (seen : List Event) (codes : List Int) (k : Int)
    (hev : p.event = "") (hevs : p.events = []) (hcode : p.exitCode = some k)
    (hk0 : k ≠ 0) (hkc : k ∉ codes) :
    LoopGood (p :: rest) seen codes ↔ LoopGood rest seen (codes ++ [k]) := by
  have hgl : getEventList p = [] := getEventList_eq_nil p hev hevs
  have hnspec : ¬ eventSpecified p := by
    simp [eventSpecified, hev, hevs]
  constructor
  · rintro ⟨g1, g2, g3, g4, g5, g6, g7⟩
    rw [List.pairwise_cons] at g5 g7
    refine ⟨fun q hq => g1 q (List.mem_cons_of_mem _ hq),
      fun q hq => g2 q (List.mem_cons_of_mem _ hq),
      fun q hq => g3 q (List.mem_cons_of_mem _ hq),
      fun q hq => g4 q (List.mem_cons_of_mem _ hq), g5.2, ?_, g7.2⟩
    intro q hq c hc
    refine ⟨(g6 q (List.mem_cons_of_mem _ hq) c hc).1, ?_⟩
    intro habs
    rcases List.mem_append.mp habs with hin | hin
    · exact (g6 q (List.mem_cons_of_mem _ hq) c hc).2 hin
    · have hck : c = k := by simpa using hin
      rcases g7.1 q hq with hnone | hneq
      · rw [hcode] at hnone
        cases hnone
      · apply hneq
        rw [hcode, hc, hck]
  · rintro ⟨g1, g2, g3, g4, g5, g6, g7⟩
    refine ⟨?_, ?_, ?_, ?_, ?_, ?_, ?_⟩
    · intro q hq
      rcases List.mem_cons.mp hq with rfl | hq
      · constructor
        · intro hs
          exact absurd hs hnspec
        · intro hn
          rw [hcode] at hn
          cases hn
      · exact g1 q hq
    · intro q hq
      rcases List.mem_cons.mp hq with rfl | hq
      · intro e he
        rw [hgl] at he
        cases he
      · exact g2 q hq
    · intro q hq
      rcases List.mem_cons.mp hq with rfl | hq
      · exact fun hs => absurd hs hnspec
      · exact g3 q hq
    · intro q hq
      rcases List.mem_cons.mp hq with rfl | hq
      · intro e he
        rw [hgl] at he
        cases he
      · exact g4 q hq
    · rw [List.pairwise_cons]
      refine ⟨?_, g5⟩
      intro q hq e hep
      rw [hgl] at hep
      cases hep
    · intro q hq
      rcases List.mem_cons.mp hq with rfl | hq
      · intro c hc
        rw [hcode] at hc
        injection hc with hck
        subst hck
        exact ⟨hk0, hkc⟩
      · intro c hc
        refine ⟨(g6 q hq c hc).1, ?_⟩
        intro hin
        exact (g6 q hq c hc).2 (List.mem_append.mpr (Or.inl hin))
    · rw [List.pairwise_cons]
      refine ⟨?_, g7⟩
      intro q hq
      right
      rw [hcode]
      intro heq
      have := (g6 q hq k heq.symm).2
      exact this (List.mem_append.mpr (Or.inr (by simp)))

theorem validatePoliciesAux_cons (policy : LifecyclePolicy)
    (rest : List LifecyclePolicy) (policyEvents : List Event) (exitCodes : List Int) :
    validatePoliciesAux (policy :: rest) policyEvents exitCodes =
      if (policy.event ≠ "" ∨ policy.events ≠ []) ∧ policy.exitCode ≠ none then
        some ([.simultaneous], policyEvents, exitCodes)
      else if policy.event = "" ∧ policy.events = [] ∧ policy.exitCode = none then
        some ([.neitherSpecified], policyEvents, exitCodes)
      else if policy.event ≠ "" ∨ policy.events ≠ [] then
        match checkEvents policy.action (getEventList policy) policyEvents with
        | (some v, policyEvents') => some ([v], policyEvents', exitCodes)
        | (none, policyEvents') => validatePoliciesAux rest policyEvents' exitCodes
      else
        match policy.exitCode with
        | none => none
        | some code =>
          if code = 0 then some ([.zeroExitCode], policyEvents, exitCodes)
          else if code ∈ exitCodes then some ([.duplicateExitCode code], policyEvents, exitCodes)
          else validatePoliciesAux rest policyEvents (exitCodes ++ [code]) := rfl

theorem validatePoliciesAux_char (ps : List LifecyclePolicy) :
    ∀ (seen : List Event) (codes : List Int),
    (LoopGood ps seen codes ∧ validatePoliciesAux ps seen codes =
        some ([], seen ++ ps.flatMap getEventList, codes ++ ps.filterMap (·.exitCode))) ∨
    (¬ LoopGood ps seen codes ∧
      ∃ v s' c', validatePoliciesAux ps seen codes = some ([v], s', c')) := by
  induction ps with
  | nil =>
    intro seen codes
    left
    exact ⟨LoopGood_nil seen codes, by simp [validatePoliciesAux]⟩
  | cons p rest ih =>
    intro seen codes
    by_cases h1 : (p.event ≠ "" ∨ p.events ≠ []) ∧ p.exitCode ≠ none
    · right
      constructor
      · rintro ⟨g1, -, -, -, -, -, -⟩
        exact h1.2 ((g1 p (List.mem_cons_self p rest)).mp h1.1)
      · exact ⟨.simultaneous, seen, codes, by rw [validatePoliciesAux_cons, if_pos h1]⟩
    · by_cases h2 : p.event = "" ∧ p.events = [] ∧ p.exitCode = none
      · right
        constructor
        · rintro ⟨g1, -, -, -, -, -, -⟩
          have hns : ¬ eventSpecified p := by
            simp [eventSpecified, h2.1, h2.2.1]
          exact hns ((g1 p (List.mem_cons_self p rest)).mpr h2.2.2)
        · exact ⟨.neitherSpecified, seen, codes,
            by rw [validatePoliciesAux_cons, if_neg h1, if_pos h2]⟩
      · by_cases h3 : p.event ≠ "" ∨ p.events ≠ []
        · have hcode : p.exitCode = none := by
            by_contra hc
            exact h1 ⟨h3, hc⟩
          have hstep : validatePoliciesAux (p :: rest) seen codes =
              match checkEvents p.action (getEventList p) seen with
              | (some v, policyEvents') => some ([v], policyEvents', codes)
              | (none, policyEvents') => validatePoliciesAux rest policyEvents' codes := by
            rw [validatePoliciesAux_cons, if_neg h1, if_neg h2, if_pos h3]
          rcases checkEvents_char (getEventList p) (getEventList_nodup p) p.action seen with
            ⟨hce, hceq⟩ | ⟨hbad, v, s', hceq⟩
          · have hstep2 : validatePoliciesAux (p :: rest) seen codes =
                validatePoliciesAux rest (seen ++ getEventList p) codes := by
              rw [hstep, hceq]
            rcases ih (seen ++ getEventList p) codes with ⟨hg, heq⟩ | ⟨hb, v, s', c', heq⟩
            · left
              constructor
              · exact (LoopGood_cons_event p rest seen codes h3 hcode hce).mpr hg
              · rw [hstep2, heq]
                simp [hcode, List.append_assoc]
            · right
              constructor
              · intro hgl
                exact hb ((LoopGood_cons_event p rest seen codes h3 hcode hce).mp hgl)
              · exact ⟨v, s', c', by rw [hstep2, heq]⟩
          · right
            constructor
            · rintro ⟨-, g2, g3, g4, -, -, -⟩
              apply hbad
              exact ⟨g2 p (List.mem_cons_self p rest),
                fun _ => g3 p (List.mem_cons_self p rest) h3,
                g4 p (List.mem_cons_self p rest)⟩
            · exact ⟨v, s', codes, by rw [hstep, hceq]⟩
        · have hev : p.event = "" := by
            by_contra hc
            exact h3 (Or.inl hc)
          have hevs : p.events = [] := by
            by_contra hc
            exact h3 (Or.inr hc)
          cases hc : p.exitCode with
          | none => exact absurd ⟨hev, hevs, hc⟩ h2
          | some k =>
            have hstep : validatePoliciesAux (p :: rest) seen codes =
                if k = 0 then some ([.zeroExitCode], seen, codes)
                else if k ∈ codes then some ([.duplicateExitCode k], seen, codes)
                else validatePoliciesAux rest seen (codes ++ [k]) := by
              rw [validatePoliciesAux_cons, if_neg h1, if_neg h2, if_neg h3, hc]
            by_cases hk0 : k = 0
            · right
              constructor
              · rintro ⟨-, -, -, -, -, g6, -⟩
                exact (g6 p (List.mem_cons_self p rest) k hc).1 hk0
              · exact ⟨.zeroExitCode, seen, codes, by rw [hstep, if_pos hk0]⟩
            · by_cases hkc : k ∈ codes
              · right
                constructor
                · rintro ⟨-, -, -, -, -, g6, -⟩
                  exact (g6 p (List.mem_cons_self p rest) k hc).2 hkc
                · exact ⟨.duplicateExitCode k, seen, codes,
                    by rw [hstep, if_neg hk0, if_pos hkc]⟩
              · have hstep2 : validatePoliciesAux (p :: rest) seen codes =
                    validatePoliciesAux rest seen (codes ++ [k]) := by
                  rw [hstep, if_neg hk0, if_neg hkc]
                rcases ih seen (codes ++ [k]) with ⟨hg, heq⟩ | ⟨hb, v, s', c', heq⟩
                · left
                  constructor
                  · exact (LoopGood_cons_exit p rest seen codes k hev hevs hc hk0 hkc).mpr hg
                  · rw [hstep2, heq]
                    simp [getEventList_eq_nil p hev hevs, hc, List.append_assoc]
                · right
                  constructor
                  · intro hgl
                    exact hb ((LoopGood_cons_exit p rest seen codes k hev hevs hc hk0 hkc).mp hgl)
                  · exact ⟨v, s', c', by rw [hstep2, heq]⟩

/-! ## From the loop characterisation to the claims' wording -/

theorem LoopGood_nil_sets (ps : List LifecyclePolicy) :
    LoopGood ps [] [] ↔
      ((∀ p ∈ ps, (eventSpecified p ↔ p.exitCode = none)) ∧
       (∀ p ∈ ps, ∀ e ∈ getEventList p, policyEventMap e = some true) ∧
       (∀ p ∈ ps, eventSpecified p → policyActionMap p.action = some true) ∧
       List.Pairwise policyEventsDisjoint ps ∧
       (∀ p ∈ ps, p.exitCode ≠ some 0) ∧
       List.Pairwise exitCodesDistinct ps) := by
  unfold LoopGood
  constructor
  · rintro ⟨g1, g2, g3, g4, g5, g6, g7⟩
    refine ⟨g1, g2, g3, g5, ?_, g7⟩
    intro p hp habs
    exact (g6 p hp 0 habs).1 rfl
  · rintro ⟨g1, g2, g3, g5, g6, g7⟩
    refine ⟨g1, g2, g3, ?_, g5, ?_, g7⟩
    · intro p hp e he h
      cases h
    · intro p hp c hc
      constructor
      · intro h0
        subst h0
        exact g6 p hp hc
      · simp

theorem flatMap_getEventList_nodup :
    ∀ ps : List LifecyclePolicy, List.Pairwise policyEventsDisjoint ps →
      (ps.flatMap getEventList).Nodup
  | [], _ => by simp
  | p :: rest, hpd => by
    rw [List.flatMap_cons]
    rw [List.pairwise_cons] at hpd
    refine List.Nodup.append (getEventList_nodup p)
      (flatMap_getEventList_nodup rest hpd.2) ?_
    intro e hep habs
    rcases List.mem_flatMap.mp habs with ⟨q, hq, heq⟩
    exact hpd.1 q hq e hep heq

theorem wildcard_cond_iff (L : List Event) (hnd : L.Nodup) :
    (AnyEvent ∈ L ∧ 1 < L.length) ↔ (AnyEvent ∈ L ∧ ∃ e ∈ L, e ≠ AnyEvent) := by
  constructor
  · rintro ⟨hA, hlen⟩
    refine ⟨hA, ?_⟩
    by_contra hno
    push_neg at hno
    rcases L with _ | ⟨a, _ | ⟨b, t⟩⟩
    · cases hA
    · simp at hlen
    · have ha := hno a (by simp)
      have hb := hno b (by simp)
      rw [List.nodup_cons] at hnd
      exact hnd.1 (by rw [ha, hb]; simp)
  · rintro ⟨hA, e, he, hne⟩
    refine ⟨hA, ?_⟩
    rcases L with _ | ⟨a, _ | ⟨b, t⟩⟩
    · cases hA
    · have h1 : e = a := by simpa using he
      have h2 : AnyEvent = a := by simpa using hA
      exact absurd (h1.trans h2.symm) hne
    · simp

theorem amendedWellFormed_iff (ps : List LifecyclePolicy) :
    amendedWellFormed ps ↔
      (LoopGood ps [] [] ∧
        ¬(AnyEvent ∈ ps.flatMap getEventList ∧
          ∃ e ∈ ps.flatMap getEventList, e ≠ AnyEvent)) := by
  rw [LoopGood_nil_sets]
  unfold amendedWellFormed wellFormedExceptAction
  tauto

/-! ## Prefix lemmas: the loops stop where the source breaks -/

theorem checkEvents_append_ok :
    ∀ (l1 : List Event) (l2 : List Event) (a : Action) (seen s' : List Event),
      checkEvents a l1 seen = (none, s') →
      checkEvents a (l1 ++ l2) seen = checkEvents a l2 s' := by
  intro l1
  induction l1 with
  | nil =>
    intro l2 a seen s' h
    rw [checkEvents] at h
    injection h with h1 h2
    rw [List.nil_append, h2]
  | cons e rest ih =>
    intro l2 a seen s' h
    cases hpe : policyEventMap e with
    | none =>
      have hstep : checkEvents a (e :: rest) seen = (some (.invalidEvent e), seen) := by
        rw [checkEvents_cons, hpe]
      rw [hstep] at h
      simp at h
    | some b =>
      cases b with
      | false =>
        have hstep : checkEvents a (e :: rest) seen = (some (.invalidEvent e), seen) := by
          rw [checkEvents_cons, hpe]
        rw [hstep] at h
        simp at h
      | true =>
        cases hpa : policyActionMap a with
        | none =>
          have hstep : checkEvents a (e :: rest) seen = (some (.invalidAction a), seen) := by
            rw [checkEvents_cons, hpe, hpa]
          rw [hstep] at h
          simp at h
        | some b2 =>
          cases b2 with
          | false =>
            have hstep : checkEvents a (e :: rest) seen = (some (.invalidAction a), seen) := by
              rw [checkEvents_cons, hpe, hpa]
            rw [hstep] at h
            simp at h
          | true =>
            by_cases hseen : e ∈ seen
            · have hstep : checkEvents a (e :: rest) seen =
                  (some (.duplicateEvent e), seen) := by
                rw [checkEvents_cons, hpe, hpa, if_pos hseen]
              rw [hstep] at h
              simp at h
            · have hstep : checkEvents a (e :: rest) seen =
                  checkEvents a rest (seen ++ [e]) := by
                rw [checkEvents_cons, hpe, hpa, if_neg hseen]
              have hstep2 : checkEvents a ((e :: rest) ++ l2) seen =
                  checkEvents a (rest ++ l2) (seen ++ [e]) := by
                rw [List.cons_append, checkEvents_cons, hpe, hpa, if_neg hseen]
              rw [hstep] at h
              rw [hstep2]
              exact ih l2 a (seen ++ [e]) s' h

theorem validatePoliciesAux_append_ok :
    ∀ (l1 l2 : List LifecyclePolicy) (seen : List Event) (codes : List Int)
      (s : List Event) (c : List Int),
      validatePoliciesAux l1 seen codes = some ([], s, c) →
      validatePoliciesAux (l1 ++ l2) seen codes = validatePoliciesAux l2 s c := by
  intro l1
  induction l1 with
  | nil =>
    intro l2 seen codes s c h
    rw [validatePoliciesAux] at h
    injection h with h1
    injection h1 with h2 h3
    injection h3 with h4 h5
    rw [List.nil_append, h4, h5]
  | cons p rest ih =>
    intro l2 seen codes s c h
    by_cases h1 : (p.event ≠ "" ∨ p.events ≠ []) ∧ p.exitCode ≠ none
    · have hstep : validatePoliciesAux (p :: rest) seen codes =
          some ([.simultaneous], seen, codes) := by
        rw [validatePoliciesAux_cons, if_pos h1]
      rw [hstep] at h
      simp at h
    · by_cases h2 : p.event = "" ∧ p.events = [] ∧ p.exitCode = none
      · have hstep : validatePoliciesAux (p :: rest) seen codes =
            some ([.neitherSpecified], seen, codes) := by
          rw [validatePoliciesAux_cons, if_neg h1, if_pos h2]
        rw [hstep] at h
        simp at h
      · by_cases h3 : p.event ≠ "" ∨ p.events ≠ []
        · rcases hce : checkEvents p.action (getEventList p) seen with ⟨r, pe'⟩
          cases r with
          | some v =>
            have hstep : validatePoliciesAux (p :: rest) seen codes =
                some ([v], pe', codes) := by
              rw [validatePoliciesAux_cons, if_neg h1, if_neg h2, if_pos h3, hce]
            rw [hstep] at h
            simp at h
          | none =>
            have hstep : validatePoliciesAux (p :: rest) seen codes =
                validatePoliciesAux rest pe' codes := by
              rw [validatePoliciesAux_cons, if_neg h1, if_neg h2, if_pos h3, hce]
            have hstep2 : validatePoliciesAux ((p :: rest) ++ l2) seen codes =
                validatePoliciesAux (rest ++ l2) pe' codes := by
              rw [List.cons_append, validatePoliciesAux_cons, if_neg h1, if_neg h2,
                if_pos h3, hce]
            rw [hstep] at h
            rw [hstep2]
            exact ih l2 pe' codes s c h
        · cases hc : p.exitCode with
          | none =>
            have hstep : validatePoliciesAux (p :: rest) seen codes = none := by
              rw [validatePoliciesAux_cons, if_neg h1, if_neg h2, if_neg h3, hc]
            rw [hstep] at h
            cases h
          | some k =>
            by_cases hk0 : k = 0
            · have hstep : validatePoliciesAux (p :: rest) seen codes =
                  some ([.zeroExitCode], seen, codes) := by
                rw [validatePoliciesAux_cons, if_neg h1, if_neg h2, if_neg h3, hc]
                simp [hk0]
              rw [hstep] at h
              simp at h
            · by_cases hkc : k ∈ codes
              · have hstep : validatePoliciesAux (p :: rest) seen codes =
                    some ([.duplicateExitCode k], seen, codes) := by
                  rw [validatePoliciesAux_cons, if_neg h1, if_neg h2, if_neg h3, hc]
                  simp [hk0, hkc]
                rw [hstep] at h
                simp at h
              · have hstep : validatePoliciesAux (p :: rest) seen codes =
                    validatePoliciesAux rest seen (codes ++ [k]) := by
                  rw [validatePoliciesAux_cons, if_neg h1, if_neg h2, if_neg h3, hc]
                  simp [hk0, hkc]
                have hstep2 : validatePoliciesAux ((p :: rest) ++ l2) seen codes =
                    validatePoliciesAux (rest ++ l2) seen (codes ++ [k]) := by
                  rw [List.cons_append, validatePoliciesAux_cons, if_neg h1, if_neg h2,
                    if_neg h3, hc]
                  simp [hk0, hkc]
                rw [hstep] at h
                rw [hstep2]
                exact ih l2 seen (codes ++ [k]) s c h

/-! ## The de-duplication helper keeps first occurrences in order -/

theorem removeDupAux_eq_dedupKeepFirst :
    ∀ (l keys : List Event),
      removeDupAux l keys = dedupKeepFirst (l.filter (fun y => y ∉ keys)) := by
  intro l
  induction l with
  | nil =>
    intro keys
    simp [removeDupAux, dedupKeepFirst]
  | cons val rest ih =>
    intro keys
    by_cases hmem : val ∈ keys
    · rw [removeDupAux, if_pos hmem]
      have hf : (val :: rest).filter (fun y => y ∉ keys) =
          rest.filter (fun y => y ∉ keys) := by
        simp [List.filter_cons, hmem]
      rw [hf, ih]
    · rw [removeDupAux, if_neg hmem]
      have hf : (val :: rest).filter (fun y => y ∉ keys) =
          val :: rest.filter (fun y => y ∉ keys) := by
        simp [List.filter_cons, hmem]
      rw [hf, dedupKeepFirst]
      congr 1
      rw [ih, List.filter_filter]
      congr 1
      apply List.filter_congr
      intro x hx
      by_cases hxk : x ∈ keys <;> by_cases hxv : x = val <;>
        simp [hxk, hxv, List.mem_append]

theorem removeDuplicates_eq_dedupKeepFirst (l : List Event) :
    removeDuplicates l = dedupKeepFirst l := by
  rw [removeDuplicates, removeDupAux_eq_dedupKeepFirst]
  congr 1
  simp

/-! ## Characterisation of the volume validator -/

theorem validateVolumesAux_cons (check : String → List String) (volume : VolumeSpec)
    (rest : List VolumeSpec) (volumeMap : List String) :
    validateVolumesAux check (volume :: rest) volumeMap =
      if volume.mountPath = "" then some .mountPathRequired
      else if volume.mountPath ∈ volumeMap then some (.duplicatedMountPath volume.mountPath)
      else if volume.volumeClaim = none ∧ volume.volumeClaimName = "" then
        some .claimOrNameRequired
      else if volume.volumeClaimName ≠ "" then
        if volume.volumeClaim ≠ none then some .claimConflict
        else if check volume.volumeClaimName ≠ [] then
          some (.invalidVolumeClaimName volume.volumeClaimName (check volume.volumeClaimName))
        else validateVolumesAux check rest (volumeMap ++ [volume.mountPath])
      else validateVolumesAux check rest (volumeMap ++ [volume.mountPath]) := rfl

theorem validateVolumesAux_none_iff (check : String → List String) :
    ∀ (vs : List VolumeSpec) (seen : List String),
      validateVolumesAux check vs seen = none ↔
        ((∀ v ∈ vs, validVolume check v) ∧ (vs.map (·.mountPath)).Nodup ∧
         ∀ v ∈ vs, v.mountPath ∉ seen) := by
  intro vs
  induction vs with
  | nil =>
    intro seen
    simp [validateVolumesAux]
  | cons v rest ih =>
    intro seen
    rw [validateVolumesAux_cons]
    by_cases g1 : v.mountPath = ""
    · rw [if_pos g1]
      constructor
      · intro h
        cases h
      · rintro ⟨hv, -, -⟩
        exact absurd g1 (hv v (List.mem_cons_self v rest)).1
    · rw [if_neg g1]
      by_cases g2 : v.mountPath ∈ seen
      · rw [if_pos g2]
        constructor
        · intro h
          cases h
        · rintro ⟨-, -, hs⟩
          exact absurd g2 (hs v (List.mem_cons_self v rest))
      · rw [if_neg g2]
        by_cases g3 : v.volumeClaim = none ∧ v.volumeClaimName = ""
        · rw [if_pos g3]
          constructor
          · intro h
            cases h
          · rintro ⟨hv, -, -⟩
            have hiff := (hv v (List.mem_cons_self v rest)).2.1
            exact absurd g3.1 (hiff.mpr g3.2)
        · rw [if_neg g3]
          by_cases g4 : v.volumeClaimName ≠ ""
          · rw [if_pos g4]
            by_cases g5 : v.volumeClaim ≠ none
            · rw [if_pos g5]
              constructor
              · intro h
                cases h
              · rintro ⟨hv, -, -⟩
                have hiff := (hv v (List.mem_cons_self v rest)).2.1
                exact absurd (hiff.mp g5) g4
            · rw [if_neg g5]
              push_neg at g5
              by_cases g6 : check v.volumeClaimName ≠ []
              · rw [if_pos g6]
                constructor
                · intro h
                  cases h
                · rintro ⟨hv, -, -⟩
                  exact absurd ((hv v (List.mem_cons_self v rest)).2.2 g4) g6
              · rw [if_neg g6]
                push_neg at g6
                rw [ih (seen ++ [v.mountPath])]
                have hvv : validVolume check v := by
                  refine ⟨g1, ?_, fun _ => g6⟩
                  constructor
                  · intro hc
                    exact absurd hc (by simp [g5])
                  · intro hn
                    exact absurd hn g4
                constructor
                · rintro ⟨hall, hnd, hseen⟩
                  refine ⟨?_, ?_, ?_⟩
                  · intro q hq
                    rcases List.mem_cons.mp hq with rfl | hq
                    · exact hvv
                    · exact hall q hq
                  · rw [List.map_cons, List.nodup_cons]
                    refine ⟨?_, hnd⟩
                    intro habs
                    rcases List.mem_map.mp habs with ⟨q, hq, hqe⟩
                    exact hseen q hq (by rw [hqe]; simp)
                  · intro q hq
                    rcases List.mem_cons.mp hq with rfl | hq
                    · exact g2
                    · intro habs
                      exact hseen q hq (List.mem_append.mpr (Or.inl habs))
                · rintro ⟨hall, hnd, hseen⟩
                  rw [List.map_cons, List.nodup_cons] at hnd
                  refine ⟨fun q hq => hall q (List.mem_cons_of_mem _ hq), hnd.2, ?_⟩
                  intro q hq habs
                  rcases List.mem_append.mp habs with hin | hin
                  · exact hseen q (List.mem_cons_of_mem _ hq) hin
                  · have : q.mountPath = v.mountPath := by simpa using hin
                    exact hnd.1 (List.mem_map.mpr ⟨q, hq, this⟩)
          · rw [if_neg g4]
            push_neg at g4
            have g5 : v.volumeClaim ≠ none := by
              intro hc
              exact g3 ⟨hc, g4⟩
            rw [ih (seen ++ [v.mountPath])]
            have hvv : validVolume check v := by
              refine ⟨g1, ?_, fun hn => absurd g4 hn⟩
              constructor
              · intro _
                exact g4
              · intro _
                exact g5
            constructor
            · rintro ⟨hall, hnd, hseen⟩
              refine ⟨?_, ?_, ?_⟩
              · intro q hq
                rcases List.mem_cons.mp hq with rfl | hq
                · exact hvv
                · exact hall q hq
              · rw [List.map_cons, List.nodup_cons]
                refine ⟨?_, hnd⟩
                intro habs
                rcases List.mem_map.mp habs with ⟨q, hq, hqe⟩
                exact hseen q hq (by rw [hqe]; simp)
              · intro q hq
                rcases List.mem_cons.mp hq with rfl | hq
                · exact g2
                · intro habs
                  exact hseen q hq (List.mem_append.mpr (Or.inl habs))
            · rintro ⟨hall, hnd, hseen⟩
              rw [List.map_cons, List.nodup_cons] at hnd
              refine ⟨fun q hq => hall q (List.mem_cons_of_mem _ hq), hnd.2, ?_⟩
              intro q hq habs
              rcases List.mem_append.mp habs with hin | hin
              · exact hseen q (List.mem_cons_of_mem _ hq) hin
              · have : q.mountPath = v.mountPath := by simpa using hin
                exact hnd.1 (List.mem_map.mpr ⟨q, hq, this⟩)

theorem validateVolumesAux_append_fail (check : String → List String) :
    ∀ (l1 l2 : List VolumeSpec) (seen : List String) (e : VolumeViolation),
      validateVolumesAux check l1 seen = some e →
      validateVolumesAux check (l1 ++ l2) seen = some e := by
  intro l1
  induction l1 with
  | nil =>
    intro l2 seen e h
    rw [validateVolumesAux] at h
    cases h
  | cons v rest ih =>
    intro l2 seen e h
    rw [validateVolumesAux_cons] at h
    rw [List.cons_append, validateVolumesAux_cons]
    by_cases g1 : v.mountPath = ""
    · rw [if_pos g1] at h ⊢
      exact h
    · rw [if_neg g1] at h ⊢
      by_cases g2 : v.mountPath ∈ seen
      · rw [if_pos g2] at h ⊢
        exact h
      · rw [if_neg g2] at h ⊢
        by_cases g3 : v.volumeClaim = none ∧ v.volumeClaimName = ""
        · rw [if_pos g3] at h ⊢
          exact h
        · rw [if_neg g3] at h ⊢
          by_cases g4 : v.volumeClaimName ≠ ""
          · rw [if_pos g4] at h ⊢
            by_cases g5 : v.volumeClaim ≠ none
            · rw [if_pos g5] at h ⊢
              exact h
            · rw [if_neg g5] at h ⊢
              by_cases g6 : check v.volumeClaimName ≠ []
              · rw [if_pos g6] at h ⊢
                exact h
              · rw [if_neg g6] at h ⊢
                exact ih l2 (seen ++ [v.mountPath]) e h
          · rw [if_neg g4] at h ⊢
            exact ih l2 (seen ++ [v.mountPath]) e h

/-! ## Claim theorems -/

/-- C10: the exit-code branch of `validatePolicies` is reached only
when the two earlier guards have ruled out a nil exit-code pointer, so
the dereference `*policy.ExitCode` never faults: the loop, modelled
totally with `none` for the fault, always returns `some`. -/
theorem validatePoliciesAux_total (ps : List LifecyclePolicy) (seen : List Event)
    (codes : List Int) : ∃ r, validatePoliciesAux ps seen codes = some r := by
  rcases validatePoliciesAux_char ps seen codes with ⟨-, heq⟩ | ⟨-, v, s', c', heq⟩
  · exact ⟨_, heq⟩
  · exact ⟨_, heq⟩

/-- C1 counterexample: the claim's iff fails as literally stated.  The
one-policy list whose policy carries only exit code 3 but an action
that is no key of the action allow-list is accepted by
`validatePolicies` (nil error, i.e. `some []`), yet it is not
well-formed in the claim's literal sense, which requires every policy's
action to be allow-listed. -/
theorem validatePolicies_claim_iff_counterexample :
    validatePolicies [⟨"", [], some 3, "Bogus"⟩] = some [] ∧
    ¬ claimWellFormed [⟨"", [], some 3, "Bogus"⟩] := by
  constructor
  · decide
  · intro h
    have := h.2 ⟨"", [], some 3, "Bogus"⟩ (List.mem_cons_self _ _)
    exact absurd this (by decide)

/-- C1 (amended): `validatePolicies` returns nil exactly on the
well-formed lists, where the action-validity condition applies to the
policies that cite at least one event (the code never inspects the
action of an exit-code-only policy); all other conditions are as the
claim states them. -/
theorem validatePolicies_nil_iff_amended (ps : List LifecyclePolicy) :
    validatePolicies ps = some [] ↔ amendedWellFormed ps := by
  rw [amendedWellFormed_iff]
  rcases validatePoliciesAux_char ps [] [] with ⟨hg, heq⟩ | ⟨hb, v, s', c', heq⟩
  · have hval : validatePolicies ps =
        some (wildcardPart (ps.flatMap getEventList)) := by
      rw [validatePolicies, heq]
      rfl
    have hnd : (ps.flatMap getEventList).Nodup :=
      flatMap_getEventList_nodup ps hg.2.2.2.2.1
    rw [hval]
    constructor
    · intro h
      refine ⟨hg, ?_⟩
      intro hcond
      have hwc : wildcardPart (ps.flatMap getEventList) = [.wildcardConflict] := by
        rw [wildcardPart, if_pos ((wildcard_cond_iff _ hnd).mpr hcond)]
      rw [hwc] at h
      simp at h
    · rintro ⟨-, hncond⟩
      have hwc : wildcardPart (ps.flatMap getEventList) = [] := by
        rw [wildcardPart, if_neg]
        intro hc
        exact hncond ((wildcard_cond_iff _ hnd).mp hc)
      rw [hwc]
  · have hval : validatePolicies ps = some (v :: wildcardPart s') := by
      rw [validatePolicies, heq]
      rfl
    rw [hval]
    constructor
    · intro h
      injection h with h1
      cases h1
    · rintro ⟨hg, -⟩
      exact absurd hg hb

/-- C2: the wildcard cross-check runs after the policy loop even when
the loop stopped early: whatever violations `errs` the loop produced,
if the seen-events set at that moment holds the wildcard and more than
one distinct event, the wildcard violation is appended after them. -/
theorem validatePolicies_wildcard_after_break (ps : List LifecyclePolicy)
    (errs : List PolicyViolation) (s : List Event) (c : List Int)
    (haux : validatePoliciesAux ps [] [] = some (errs, s, c))
    (hany : AnyEvent ∈ s) (hlen : 1 < s.length) :
    validatePolicies ps = some (errs ++ [.wildcardConflict]) := by
  rw [validatePolicies, haux]
  show some (errs ++ wildcardPart s) = some (errs ++ [PolicyViolation.wildcardConflict])
  rw [wildcardPart, if_pos ⟨hany, hlen⟩]

theorem validatePolicies_wildcard_after_break_witness :
    validatePolicies [⟨AnyEvent, [], none, AbortJobAction⟩,
      ⟨PodFailedEvent, [], none, AbortJobAction⟩,
      ⟨PodFailedEvent, [], some 3, AbortJobAction⟩] =
      some [.simultaneous, .wildcardConflict] := by
  have h := validatePolicies_wildcard_after_break
    [⟨AnyEvent, [], none, AbortJobAction⟩, ⟨PodFailedEvent, [], none, AbortJobAction⟩,
      ⟨PodFailedEvent, [], some 3, AbortJobAction⟩]
    [.simultaneous] [AnyEvent, PodFailedEvent] [] (by decide) (by decide) (by decide)
  exact h

/-- C3: the aggregated error of `validatePolicies` unwraps to at most
two violations: the loop contributes at most one (every violating
branch breaks), the post-loop wildcard cross-check at most one more. -/
theorem validatePolicies_error_count_le_two (ps : List LifecyclePolicy)
    (errs : List PolicyViolation) (h : validatePolicies ps = some errs) :
    errs.length ≤ 2 := by
  rcases validatePoliciesAux_char ps [] [] with ⟨-, heq⟩ | ⟨-, v, s', c', heq⟩
  · have hval : validatePolicies ps =
        some (wildcardPart (ps.flatMap getEventList)) := by
      rw [validatePolicies, heq]
      rfl
    rw [hval] at h
    injection h with h1
    rw [← h1, wildcardPart]
    split
    · simp
    · simp
  · have hval : validatePolicies ps = some (v :: wildcardPart s') := by
      rw [validatePolicies, heq]
      rfl
    rw [hval] at h
    injection h with h1
    rw [← h1, List.length_cons, wildcardPart]
    split
    · simp
    · simp

theorem validatePolicies_error_count_le_two_witness :
    ([PolicyViolation.simultaneous, .wildcardConflict] : List PolicyViolation).length ≤ 2 :=
  validatePolicies_error_count_le_two
    [⟨AnyEvent, [], none, AbortJobAction⟩, ⟨PodFailedEvent, [], none, AbortJobAction⟩,
      ⟨PodFailedEvent, [], some 3, AbortJobAction⟩]
    [.simultaneous, .wildcardConflict] (by decide)

/-- C4 counterexample: the claim fails as universally stated.  The
two-policy list below contains a policy that sets both an event and an
exit code (the second one), yet the returned error is only the
zero-exit-code violation of the first policy: the loop broke before the
offending policy was reached and nothing mentions simultaneous
specification. -/
theorem validatePolicies_simultaneous_counterexample :
    ((⟨PodFailedEvent, [], some 3, AbortJobAction⟩ : LifecyclePolicy).event ≠ "" ∨
      (⟨PodFailedEvent, [], some 3, AbortJobAction⟩ : LifecyclePolicy).events ≠ []) ∧
    (⟨PodFailedEvent, [], some 3, AbortJobAction⟩ : LifecyclePolicy).exitCode ≠ none ∧
    validatePolicies [⟨"", [], some 0, AbortJobAction⟩,
      ⟨PodFailedEvent, [], some 3, AbortJobAction⟩] = some [.zeroExitCode] ∧
    PolicyViolation.simultaneous ∉ [PolicyViolation.zeroExitCode] := by
  decide

/-- C4 (amended): when every policy before the both-set policy passes
its checks, `validatePolicies` stops at that policy with the
simultaneous-specification violation (plus, at most, the post-loop
wildcard entry), regardless of the policies after it: no later policy
is examined. -/
theorem validatePolicies_simultaneous_stops (pre : List LifecyclePolicy)
    (p : LifecyclePolicy) (post : List LifecyclePolicy) (s : List Event) (c : List Int)
    (hboth : (p.event ≠ "" ∨ p.events ≠ []) ∧ p.exitCode ≠ none)
    (hpre : validatePoliciesAux pre [] [] = some ([], s, c)) :
    validatePolicies (pre ++ p :: post) = some (.simultaneous :: wildcardPart s) := by
  have haux : validatePoliciesAux (pre ++ p :: post) [] [] =
      some ([.simultaneous], s, c) := by
    rw [validatePoliciesAux_append_ok pre (p :: post) [] [] s c hpre]
    rw [validatePoliciesAux_cons, if_pos hboth]
  rw [validatePolicies, haux]
  rfl

theorem validatePolicies_simultaneous_stops_witness :
    validatePolicies [⟨PodFailedEvent, [], none, AbortJobAction⟩,
      ⟨PodEvictedEvent, [], some 3, AbortJobAction⟩,
      ⟨TaskCompletedEvent, [], none, AbortJobAction⟩] = some [.simultaneous] := by
  have h := validatePolicies_simultaneous_stops
    [⟨PodFailedEvent, [], none, AbortJobAction⟩]
    ⟨PodEvictedEvent, [], some 3, AbortJobAction⟩
    [⟨TaskCompletedEvent, [], none, AbortJobAction⟩]
    [PodFailedEvent] [] (by decide) (by decide)
  have hwc : wildcardPart [PodFailedEvent] = [] := by decide
  rw [hwc] at h
  exact h

/-- C5: on the exit-code path (no event specification, non-nil exit
code), exit code 0 is rejected with the zero-code violation, a code
already recorded by an earlier policy is rejected as a duplicate, and a
list of policies that each carry only a non-zero exit code, pairwise
distinct, is accepted. -/
theorem validatePolicies_exitCode_rules :
    (∀ (pre : List LifecyclePolicy) (p : LifecyclePolicy) (post : List LifecyclePolicy)
        (s : List Event) (c : List Int),
      p.event = "" → p.events = [] → p.exitCode = some 0 →
      validatePoliciesAux pre [] [] = some ([], s, c) →
      validatePolicies (pre ++ p :: post) = some (.zeroExitCode :: wildcardPart s)) ∧
    (∀ (pre : List LifecyclePolicy) (p : LifecyclePolicy) (post : List LifecyclePolicy)
        (s : List Event) (c : List Int) (k : Int),
      p.event = "" → p.events = [] → p.exitCode = some k → k ≠ 0 → k ∈ c →
      validatePoliciesAux pre [] [] = some ([], s, c) →
      validatePolicies (pre ++ p :: post) = some (.duplicateExitCode k :: wildcardPart s)) ∧
    (∀ ps : List LifecyclePolicy,
      (∀ p ∈ ps, p.event = "" ∧ p.events = [] ∧ p.exitCode ≠ none ∧ p.exitCode ≠ some 0) →
      List.Pairwise exitCodesDistinct ps →
      validatePolicies ps = some []) := by
  refine ⟨?_, ?_, ?_⟩
  · intro pre p post s c hev hevs hcode hpre
    have hn1 : ¬((p.event ≠ "" ∨ p.events ≠ []) ∧ p.exitCode ≠ none) := by
      simp [hev, hevs]
    have hn2 : ¬(p.event = "" ∧ p.events = [] ∧ p.exitCode = none) := by
      simp [hev, hevs, hcode]
    have hn3 : ¬(p.event ≠ "" ∨ p.events ≠ []) := by
      simp [hev, hevs]
    have haux : validatePoliciesAux (pre ++ p :: post) [] [] =
        some ([.zeroExitCode], s, c) := by
      rw [validatePoliciesAux_append_ok pre (p :: post) [] [] s c hpre]
      rw [validatePoliciesAux_cons, if_neg hn1, if_neg hn2, if_neg hn3, hcode]
      simp
    rw [validatePolicies, haux]
    rfl
  · intro pre p post s c k hev hevs hcode hk0 hkc hpre
    have hn1 : ¬((p.event ≠ "" ∨ p.events ≠ []) ∧ p.exitCode ≠ none) := by
      simp [hev, hevs]
    have hn2 : ¬(p.event = "" ∧ p.events = [] ∧ p.exitCode = none) := by
      simp [hev, hevs, hcode]
    have hn3 : ¬(p.event ≠ "" ∨ p.events ≠ []) := by
      simp [hev, hevs]
    have haux : validatePoliciesAux (pre ++ p :: post) [] [] =
        some ([.duplicateExitCode k], s, c) := by
      rw [validatePoliciesAux_append_ok pre (p :: post) [] [] s c hpre]
      rw [validatePoliciesAux_cons, if_neg hn1, if_neg hn2, if_neg hn3, hcode]
      simp [hk0, hkc]
    rw [validatePolicies, haux]
    rfl
  · intro ps hall hpd
    have hgl : ∀ p ∈ ps, getEventList p = [] := by
      intro p hp
      exact getEventList_eq_nil p (hall p hp).1 (hall p hp).2.1
    have hLG : LoopGood ps [] [] := by
      rw [LoopGood_nil_sets]
      refine ⟨?_, ?_, ?_, ?_, ?_, hpd⟩
      · intro p hp
        constructor
        · intro hs
          exact absurd hs (by simp [eventSpecified, (hall p hp).1, (hall p hp).2.1])
        · intro hn
          exact absurd hn (hall p hp).2.2.1
      · intro p hp e he
        rw [hgl p hp] at he
        cases he
      · intro p hp hs
        exact absurd hs (by simp [eventSpecified, (hall p hp).1, (hall p hp).2.1])
      · have haux2 : ∀ qs : List LifecyclePolicy, (∀ p ∈ qs, getEventList p = []) →
            List.Pairwise policyEventsDisjoint qs := by
          intro qs
          induction qs with
          | nil => intro _; exact List.Pairwise.nil
          | cons q rest ih =>
            intro hq
            rw [List.pairwise_cons]
            refine ⟨?_, ih (fun r hr => hq r (List.mem_cons_of_mem _ hr))⟩
            intro r hr e he
            rw [hq q (List.mem_cons_self q rest)] at he
            cases he
        exact haux2 ps hgl
      · intro p hp
        exact (hall p hp).2.2.2
    rcases validatePoliciesAux_char ps [] [] with ⟨-, heq⟩ | ⟨hb, -, -, -, -⟩
    · have hfm : ps.flatMap getEventList = [] := by
        apply List.eq_nil_iff_forall_not_mem.mpr
        intro e he
        rcases List.mem_flatMap.mp he with ⟨q, hq, heq2⟩
        rw [hgl q hq] at heq2
        cases heq2
      have hval : validatePolicies ps =
          some (wildcardPart (ps.flatMap getEventList)) := by
        rw [validatePolicies, heq]
        rfl
      rw [hval, hfm]
      rw [wildcardPart, if_neg]
      simp
    · exact absurd hLG hb

theorem validatePolicies_exitCode_rules_witness :
    validatePolicies [⟨"", [], some 0, AbortJobAction⟩] = some [.zeroExitCode] ∧
    validatePolicies [⟨"", [], some 3, AbortJobAction⟩, ⟨"", [], some 3, AbortJobAction⟩] =
      some [.duplicateExitCode 3] ∧
    validatePolicies [⟨"", [], some 3, AbortJobAction⟩, ⟨"", [], some 4, AbortJobAction⟩] =
      some [] := by
  refine ⟨?_, ?_, ?_⟩
  · have h := validatePolicies_exitCode_rules.1 [] ⟨"", [], some 0, AbortJobAction⟩ [] [] []
      rfl rfl rfl (by decide)
    have hwc : wildcardPart [] = [] := by decide
    rw [hwc] at h
    exact h
  · have h := validatePolicies_exitCode_rules.2.1 [⟨"", [], some 3, AbortJobAction⟩]
      ⟨"", [], some 3, AbortJobAction⟩ [] [] [3] 3 rfl rfl rfl (by decide) (by decide)
      (by decide)
    have hwc : wildcardPart [] = [] := by decide
    rw [hwc] at h
    exact h
  · exact validatePolicies_exitCode_rules.2.2 _ (by decide) (by decide)

/-- C6: inside a policy's event loop the merged events are checked in
order and event validity is checked before action validity: an event
that is not allow-listed with flag true yields the invalid-event
violation no matter what the action is, an allow-listed event with a
non-allow-listed action yields the invalid-action violation, and either
failure stops both the event loop and the outer policy loop (the result
does not depend on the remaining policies). -/
theorem validatePolicies_event_before_action :
    (∀ (a : Action) (l1 : List Event) (e : Event) (l2 : List Event) (seen s' : List Event),
      checkEvents a l1 seen = (none, s') →
      policyEventMap e ≠ some true →
      checkEvents a (l1 ++ e :: l2) seen = (some (.invalidEvent e), s')) ∧
    (∀ (a : Action) (l1 : List Event) (e : Event) (l2 : List Event) (seen s' : List Event),
      checkEvents a l1 seen = (none, s') →
      policyEventMap e = some true →
      policyActionMap a ≠ some true →
      checkEvents a (l1 ++ e :: l2) seen = (some (.invalidAction a), s')) ∧
    (∀ (pre : List LifecyclePolicy) (p : LifecyclePolicy) (post : List LifecyclePolicy)
        (s : List Event) (c : List Int) (m : PolicyViolation) (s' : List Event),
      validatePoliciesAux pre [] [] = some ([], s, c) →
      (p.event ≠ "" ∨ p.events ≠ []) → p.exitCode = none →
      checkEvents p.action (getEventList p) s = (some m, s') →
      validatePolicies (pre ++ p :: post) = some (m :: wildcardPart s')) := by
  refine ⟨?_, ?_, ?_⟩
  · intro a l1 e l2 seen s' hl1 hbad
    rw [checkEvents_append_ok l1 (e :: l2) a seen s' hl1]
    cases hpe : policyEventMap e with
    | none => rw [checkEvents_cons, hpe]
    | some b =>
      cases b with
      | false => rw [checkEvents_cons, hpe]
      | true => exact absurd hpe hbad
  · intro a l1 e l2 seen s' hl1 hpe hbad
    rw [checkEvents_append_ok l1 (e :: l2) a seen s' hl1]
    cases hpa : policyActionMap a with
    | none => rw [checkEvents_cons, hpe, hpa]
    | some b =>
      cases b with
      | false => rw [checkEvents_cons, hpe, hpa]
      | true => exact absurd hpa hbad
  · intro pre p post s c m s' hpre hspec hcode hcheck
    have hn1 : ¬((p.event ≠ "" ∨ p.events ≠ []) ∧ p.exitCode ≠ none) := by
      intro h
      exact h.2 hcode
    have hn2 : ¬(p.event = "" ∧ p.events = [] ∧ p.exitCode = none) := by
      intro h
      rcases hspec with hs | hs
      · exact hs h.1
      · exact hs h.2.1
    have haux : validatePoliciesAux (pre ++ p :: post) [] [] = some ([m], s', c) := by
      rw [validatePoliciesAux_append_ok pre (p :: post) [] [] s c hpre]
      rw [validatePoliciesAux_cons, if_neg hn1, if_neg hn2, if_pos hspec, hcheck]
    rw [validatePolicies, haux]
    rfl

theorem validatePolicies_event_before_action_witness :
    checkEvents SyncJobAction [OutOfSyncEvent] [] =
      (some (.invalidEvent OutOfSyncEvent), []) ∧
    checkEvents SyncJobAction [PodFailedEvent] [] =
      (some (.invalidAction SyncJobAction), []) ∧
    validatePolicies [⟨OutOfSyncEvent, [], none, AbortJobAction⟩,
      ⟨PodFailedEvent, [], none, AbortJobAction⟩] =
      some [.invalidEvent OutOfSyncEvent] := by
  refine ⟨?_, ?_, ?_⟩
  · exact validatePolicies_event_before_action.1 SyncJobAction [] OutOfSyncEvent [] [] []
      rfl (by decide)
  · exact validatePolicies_event_before_action.2.1 SyncJobAction [] PodFailedEvent [] [] []
      rfl (by decide) (by decide)
  · have h := validatePolicies_event_before_action.2.2 []
      ⟨OutOfSyncEvent, [], none, AbortJobAction⟩
      [⟨PodFailedEvent, [], none, AbortJobAction⟩] [] []
      (.invalidEvent OutOfSyncEvent) [] rfl (by decide) rfl (by decide)
    have hwc : wildcardPart [] = [] := by decide
    rw [hwc] at h
    exact h

/-- C7: `getEventList` returns the `Events` entries followed by the
single `Event` entry (appended only when nonempty), de-duplicated
keeping the first occurrence and preserving relative order
(`dedupKeepFirst` makes that reading manifest, and the sublist and
no-duplicate facts witness order preservation and de-duplication); the
claim's example instance is included. -/
theorem getEventList_spec :
    (∀ p : LifecyclePolicy,
      getEventList p =
        dedupKeepFirst (if p.event ≠ "" then p.events ++ [p.event] else p.events) ∧
      (getEventList p).Sublist
        (if p.event ≠ "" then p.events ++ [p.event] else p.events) ∧
      (getEventList p).Nodup) ∧
    ∀ a : Action, getEventList ⟨"B", ["A", "B"], none, a⟩ = ["A", "B"] := by
  constructor
  · intro p
    refine ⟨?_, ?_, getEventList_nodup p⟩
    · rw [getEventList, removeDuplicates_eq_dedupKeepFirst]
    · rw [getEventList, removeDuplicates]
      exact removeDupAux_sublist _ _
  · intro a
    rfl

/-- C8: `validateIO` (modelled by `validateVolumes`) returns nil
exactly when every entry is valid with pairwise-distinct mount paths;
per entry the empty-mount-path error precedes every other check, a
mount path seen earlier yields the duplicated-mount-path error naming
the path, and the first failure is returned unchanged whatever volumes
follow. -/
theorem validateVolumes_first_error_spec :
    (∀ (check : String → List String) (vs : List VolumeSpec),
      validateVolumes check vs = none ↔ goodVolumes check vs) ∧
    (∀ (check : String → List String) (v : VolumeSpec) (rest : List VolumeSpec)
        (seen : List String),
      v.mountPath = "" →
      validateVolumesAux check (v :: rest) seen = some .mountPathRequired) ∧
    (∀ (check : String → List String) (v : VolumeSpec) (rest : List VolumeSpec)
        (seen : List String),
      v.mountPath ≠ "" → v.mountPath ∈ seen →
      validateVolumesAux check (v :: rest) seen =
        some (.duplicatedMountPath v.mountPath)) ∧
    (∀ (check : String → List String) (l1 l2 : List VolumeSpec) (e : VolumeViolation),
      validateVolumes check l1 = some e → validateVolumes check (l1 ++ l2) = some e) := by
  refine ⟨?_, ?_, ?_, ?_⟩
  · intro check vs
    rw [validateVolumes, validateVolumesAux_none_iff]
    unfold goodVolumes
    constructor
    · rintro ⟨h1, h2, -⟩
      exact ⟨h1, h2⟩
    · rintro ⟨h1, h2⟩
      exact ⟨h1, h2, by simp⟩
  · intro check v rest seen hmp
    rw [validateVolumesAux_cons, if_pos hmp]
  · intro check v rest seen hne hmem
    rw [validateVolumesAux_cons, if_neg hne, if_pos hmem]
  · intro check l1 l2 e h
    rw [validateVolumes] at h ⊢
    exact validateVolumesAux_append_fail check l1 l2 [] e h

theorem validateVolumes_first_error_spec_witness :
    validateVolumes (fun _ => []) [⟨"/data", some (), ""⟩] = none ∧
    validateVolumesAux (fun _ => []) [⟨"", none, "pvc"⟩] [] = some .mountPathRequired ∧
    validateVolumesAux (fun _ => []) [⟨"/data", none, "pvc"⟩] ["/data"] =
      some (.duplicatedMountPath "/data") ∧
    validateVolumes (fun _ => []) [⟨"", none, "pvc"⟩, ⟨"/x", some (), ""⟩] =
      some .mountPathRequired := by
  refine ⟨?_, ?_, ?_, ?_⟩
  · exact (validateVolumes_first_error_spec.1 (fun _ => []) _).mpr (by decide)
  · exact validateVolumes_first_error_spec.2.1 (fun _ => []) _ _ _ rfl
  · exact validateVolumes_first_error_spec.2.2.1 (fun _ => []) _ _ _ (by decide) (by decide)
  · exact validateVolumes_first_error_spec.2.2.2 (fun _ => [])
      [⟨"", none, "pvc"⟩] [⟨"/x", some (), ""⟩] _ (by decide)

/-- C9: for a volume entry whose mount path passed its checks, exactly
one of the inline claim template and the claim-name reference must be
set: neither set yields the either-required error, both set yields the
conflict error, and a name reference alone that fails the delegated
persistent-volume-name check yields the invalid-name error carrying the
check's messages. -/
theorem validateVolumes_claim_rules :
    (∀ (check : String → List String) (v : VolumeSpec) (rest : List VolumeSpec)
        (seen : List String),
      v.mountPath ≠ "" → v.mountPath ∉ seen →
      v.volumeClaim = none → v.volumeClaimName = "" →
      validateVolumesAux check (v :: rest) seen = some .claimOrNameRequired) ∧
    (∀ (check : String → List String) (v : VolumeSpec) (rest : List VolumeSpec)
        (seen : List String),
      v.mountPath ≠ "" → v.mountPath ∉ seen →
      v.volumeClaim ≠ none → v.volumeClaimName ≠ "" →
      validateVolumesAux check (v :: rest) seen = some .claimConflict) ∧
    (∀ (check : String → List String) (v : VolumeSpec) (rest : List VolumeSpec)
        (seen : List String),
      v.mountPath ≠ "" → v.mountPath ∉ seen →
      v.volumeClaim = none → v.volumeClaimName ≠ "" → check v.volumeClaimName ≠ [] →
      validateVolumesAux check (v :: rest) seen =
        some (.invalidVolumeClaimName v.volumeClaimName (check v.volumeClaimName))) := by
  refine ⟨?_, ?_, ?_⟩
  · intro check v rest seen hmp hseen hclaim hname
    rw [validateVolumesAux_cons, if_neg hmp, if_neg hseen, if_pos ⟨hclaim, hname⟩]
  · intro check v rest seen hmp hseen hclaim hname
    have hn3 : ¬(v.volumeClaim = none ∧ v.volumeClaimName = "") := by
      intro h
      exact hclaim h.1
    rw [validateVolumesAux_cons, if_neg hmp, if_neg hseen, if_neg hn3, if_pos hname,
      if_pos hclaim]
  · intro check v rest seen hmp hseen hclaim hname hcheck
    have hn3 : ¬(v.volumeClaim = none ∧ v.volumeClaimName = "") := by
      intro h
      exact hname h.2
    have hn5 : ¬(v.volumeClaim ≠ none) := by
      intro h
      exact h hclaim
    rw [validateVolumesAux_cons, if_neg hmp, if_neg hseen, if_neg hn3, if_pos hname,
      if_neg hn5, if_pos hcheck]

theorem validateVolumes_claim_rules_witness :
    validateVolumesAux (fun _ => []) [⟨"/a", none, ""⟩] [] = some .claimOrNameRequired ∧
    validateVolumesAux (fun _ => []) [⟨"/a", some (), "pvc"⟩] [] = some .claimConflict ∧
    validateVolumesAux (fun _ => ["bad name"]) [⟨"/a", none, "pvc"⟩] [] =
      some (.invalidVolumeClaimName "pvc" ["bad name"]) := by
  refine ⟨?_, ?_, ?_⟩
  · exact validateVolumes_claim_rules.1 (fun _ => []) _ _ _
      (by decide) (by decide) rfl rfl
  · exact validateVolumes_claim_rules.2.1 (fun _ => []) _ _ _
      (by decide) (by decide) (by decide) (by decide)
  · exact validateVolumes_claim_rules.2.2 (fun _ => ["bad name"]) _ _ _
      (by decide) (by decide) rfl (by decide) (by decide)

end JobValidate

